import Mathlib

/-!
Shallow embedding of the adaptive batch inference-and-scoring engine of
`lighteval` (file `src/lighteval/models/transformers/transformers_model.py`),
together with theorems settling the specification claims about it.

Python sequences are modelled as `List`, token ids as `Nat`, label ids as
`Int` (the label sentinel is `-100`), and floating-point scores as `ℚ`.
Python's negative-index slicing quirks (`l[-k:]` with `k = 0` yields the
whole list, `l[:n]` with negative `n` drops from the end) are modelled
explicitly by `pyTakeLast` and `pySliceUpto`.
-/

namespace Lighteval

/-- Python `l[-k:]`: the last `k` elements, except that `k = 0` yields the
whole list (Python `l[-0:] = l[0:] = l`). -/
def pyTakeLast (l : List α) (k : Nat) : List α :=
  if k = 0 then l else l.drop (l.length - k)

/-- Python `l[:n]` for an `Int` bound `n`: a nonnegative bound keeps the
first `n` elements, a negative bound drops the last `|n|` elements. -/
def pySliceUpto (l : List α) (n : Int) : List α :=
  if 0 ≤ n then l.take n.toNat else l.take (l.length - (-n).toNat)

/-- Effectful map over a list in the `Option` monad (explicit recursion, so
that proofs can unfold it structurally). -/
def mapMOption (f : α → Option β) : List α → Option (List β)
  | [] => some []
  | a :: t =>
      match f a, mapMOption f t with
      | some b, some bs => some (b :: bs)
      | _, _ => none

/-- Effectful map over a list in the `Except` monad: stops at the first
error, like a Python loop that raises. -/
def mapMExcept (f : α → Except ε β) : List α → Except ε (List β)
  | [] => Except.ok []
  | a :: t =>
      match f a with
      | Except.error e => Except.error e
      | Except.ok b =>
          match mapMExcept f t with
          | Except.error e => Except.error e
          | Except.ok bs => Except.ok (b :: bs)

/-- A log-likelihood request after tokenization: the engine attaches
`tokenized_context` and `tokenized_continuation` before batching
(`loglikelihood` / `loglikelihood_rolling` in the source). -/
structure LLRequest where
  tokenized_context : List Nat
  tokenized_continuation : List Nat
deriving DecidableEq, Repr

/-- The `Batch` aggregate built by the engine (fields as used throughout
`transformers_model.py`: rectangular `input_ids`, boolean `input_mask`,
per-row `input_lengths`, `truncated` and `padded` counts). -/
structure Batch where
  input_ids : List (List Nat)
  input_mask : List (List Bool)
  input_lengths : List Nat
  truncated : List Nat
  padded : List Nat
deriving DecidableEq, Repr

/-- The per-request model input rows assembled by `prepare_batch_logprob`:
the plain context in single-token mode, otherwise context plus continuation
with the continuation's last token dropped (source line 1293-1298). -/
def logprobInputs (singleToken : Bool) (batch : List LLRequest) : List (List Nat) :=
  if singleToken then
    batch.map (fun r => r.tokenized_context)
  else
    batch.map (fun r => r.tokenized_context ++ r.tokenized_continuation.dropLast)

/-- One prepared row of a log-probability batch. -/
structure PreparedRow where
  tokens : List Nat
  mask : List Bool
  inputLength : Nat
  truncatedCount : Nat
  paddedCount : Nat
deriving DecidableEq, Repr

/-- The per-row body of the loop in `prepare_batch_logprob` (source lines
1311-1334): record `max(len - max_context, 0)` as truncated, keep the last
`max_context` tokens (Python `orig_tokens[-max_context:]`), fail on negative
padding (the source raises `ValueError`), right-pad with the pad token to
`padding_length` columns, and set the mask to `tokens == pad_token_id`. -/
def prepareRow (padTokenId maxContext paddingLength : Nat) (origTokens : List Nat) :
    Option PreparedRow :=
  let truncCount := origTokens.length - maxContext
  let kept := pyTakeLast origTokens maxContext
  let seqLen := kept.length
  if paddingLength < seqLen then
    none
  else
    let toks := kept ++ List.replicate (paddingLength - seqLen) padTokenId
    some
      { tokens := toks
        mask := toks.map (fun t => t == padTokenId)
        inputLength := seqLen
        truncatedCount := truncCount
        paddedCount := paddingLength - seqLen }

/-- `prepare_batch_logprob` (source lines 1286-1345): build every row and
assemble the `Batch`; `none` models the `ValueError` on negative padding. -/
def prepare_batch_logprob (padTokenId maxContext paddingLength : Nat)
    (singleToken : Bool) (batch : List LLRequest) : Option Batch :=
  (mapMOption (prepareRow padTokenId maxContext paddingLength)
      (logprobInputs singleToken batch)).map
    (fun rows =>
      { input_ids := rows.map (fun r => r.tokens)
        input_mask := rows.map (fun r => r.mask)
        input_lengths := rows.map (fun r => r.inputLength)
        truncated := rows.map (fun r => r.truncatedCount)
        padded := rows.map (fun r => r.paddedCount) })

/-- The `max_new_tokens` computation of `greedy_until` (source lines
1002-1017): a context wider than the model's maximum length forces a budget
of exactly 1; otherwise a `None` generation size takes all remaining space,
and a requested size is clamped to the remaining space and then raised to 1
when the clamp fell below 1. -/
def computeMaxNewTokens (maxLength contextSize : Nat) (generationSize : Option Int) : Int :=
  if contextSize > maxLength then
    1
  else
    match generationSize with
    | none => (maxLength : Int) - contextSize
    | some g =>
        let m := min ((maxLength : Int) - contextSize) g
        if m < 1 then 1 else m

/-- First index of the maximum entry (the tie-breaking of `torch.argmax`,
which returns the first maximal index), auxiliary accumulator form. -/
def argmaxAux (best : ℚ) (bestIdx cur : Nat) : List ℚ → Nat
  | [] => bestIdx
  | x :: xs => if best < x then argmaxAux x cur (cur + 1) xs else argmaxAux best bestIdx (cur + 1) xs

/-- `torch.argmax` over a vocabulary distribution: first maximal index
(0 on the empty list). -/
def argmaxIdx : List ℚ → Nat
  | [] => 0
  | x :: xs => argmaxAux x 0 1 xs

/-- The per-row scoring body of `_loglikelihood_tokens` (source lines
1212-1237): if the continuation is longer than the unpadded input length
(rolling mode) keep the whole logits row and score only the first `inplen`
continuation tokens, otherwise slice the logits to positions
`[inplen - contlen, inplen)`; the greedy flag compares per-position argmax
with the continuation, and the score sums the log-probabilities gathered at
the continuation token indices. -/
def scoreRow (logitsRow : List (List ℚ)) (inplen : Nat) (contToks : List Nat) : ℚ × Bool :=
  let contlen := contToks.length
  if inplen < contlen then
    let cont := contToks.take inplen
    let greedy := logitsRow.map argmaxIdx == cont
    let s := ((logitsRow.zip cont).map (fun p => p.1.getD p.2 0)).sum
    (s, greedy)
  else
    let sliced := (logitsRow.take inplen).drop (inplen - contlen)
    let greedy := sliced.map argmaxIdx == contToks
    let s := ((sliced.zip contToks).map (fun p => p.1.getD p.2 0)).sum
    (s, greedy)

/-- `STARTING_BATCH_SIZE` (source line 106). -/
def STARTING_BATCH_SIZE : Nat := 512

/-- `_get_batch_size` (source lines 742-759): a positive caller override is
returned unchanged; otherwise the memory probe (`find_executable_batch_size`
starting from `starting_batch_size`, an external collaborator modelled as
the function `probe`) determines the size. -/
def get_batch_size (probe : Nat → Nat) (overrideBs : Int) (startingBatchSize : Nat) : Nat :=
  if 0 < overrideBs then overrideBs.toNat else probe startingBatchSize

/-- The starting batch sizes passed to `_get_batch_size` across the group
loop of `greedy_until` (source lines 934-961) and `_loglikelihood_tokens`
(source lines 1173-1191): the loop keeps a running `starting_batch_size`,
initially 512, and after each group sets it to twice the size that group
used. `numSplits` is the number of processing groups. -/
def chainedStartingSizes (probe : Nat → Nat) (overrideBs : Int) :
    Nat → Nat → List Nat
  | 0, _ => []
  | n + 1, s => s :: chainedStartingSizes probe overrideBs n (2 * get_batch_size probe overrideBs s)

/-- The starting batch sizes used by `_loglikelihood_single_token` (source
lines 1415-1425): the local `starting_batch_size` variable is initialised
but never passed to `_get_batch_size`, so every group probes from the
default parameter value 512. -/
def singleTokenStartingSizes (numSplits : Nat) : List Nat :=
  List.replicate numSplits 512

/-- `pat` occurs as a contiguous run inside `hay` (Python's `in` operator
on strings, used by `MultiTokenEOSCriteria.__call__`). -/
def containsSeq (pat : List Char) : List Char → Bool
  | [] => pat.isEmpty
  | c :: t => pat.isPrefixOf (c :: t) || containsSeq pat t

/-- The per-row "hit" test of `MultiTokenEOSCriteria.__call__` (source
lines 1994-2002): decode the trailing window of newly generated tokens
(window length = the stop fragment's token length, Python slice
`input_ids[:, initial_len:][:, -seq_id_len:]`) and test whether the decoded
text contains the fragment. `decode` models `tokenizer.batch_decode` on a
single row. -/
def eosHit (decode : List Nat → List Char) (sequence : List Char)
    (seqIdLen initialLen : Nat) (row : List Nat) : Bool :=
  containsSeq sequence (decode (pyTakeLast (row.drop initialLen) seqIdLen))

/-- One call of `MultiTokenEOSCriteria.__call__`: rows not yet done are
re-tested, done rows stay done; the updated tracker is returned (source
lines 2000-2002). -/
def eosStepDone (decode : List Nat → List Char) (sequence : List Char)
    (seqIdLen initialLen : Nat) (done : List Bool) (inputIds : List (List Nat)) : List Bool :=
  (done.zip inputIds).map
    (fun p => if p.1 then true else eosHit decode sequence seqIdLen initialLen p.2)

/-- The boolean returned by one call: `False not in self.done_tracker`,
i.e. every row of the updated tracker is done (source line 2003). -/
def eosStepHalt (decode : List Nat → List Char) (sequence : List Char)
    (seqIdLen initialLen : Nat) (done : List Bool) (inputIds : List (List Nat)) : Bool :=
  (eosStepDone decode sequence seqIdLen initialLen done inputIds).all (fun b => b)

/-- The tracker after a sequence of generation steps, each step giving the
current `input_ids` snapshot; the initial tracker is all-False
(`[False] * batch_size`, source line 1988). -/
def eosRunDone (decode : List Nat → List Char) (sequence : List Char)
    (seqIdLen initialLen : Nat) (done : List Bool) : List (List (List Nat)) → List Bool
  | [] => done
  | snap :: rest =>
      eosRunDone decode sequence seqIdLen initialLen
        (eosStepDone decode sequence seqIdLen initialLen done snap) rest

/-- `_check_continuations_start_space` (source lines 724-737): with the
option unset the continuation is untouched; otherwise the first character
is inspected (`none` models the `IndexError` on an empty string) and a
space is prepended or leading whitespace stripped. -/
def checkContinuationsStartSpace (mcss : Option Bool) (c : List Char) :
    Option (List Char) :=
  match mcss with
  | none => some c
  | some b =>
      match c with
      | [] => none
      | ch :: t =>
          if b then
            some (if ch = Char.ofNat 32 then ch :: t else Char.ofNat 32 :: ch :: t)
          else
            some (if ch = Char.ofNat 32 then (ch :: t).dropWhile Char.isWhitespace else ch :: t)

/-- The per-request validation loop of `loglikelihood_single_token` (source
lines 1395-1411): adjust each choice's start-of-string space, encode it
without special tokens, and raise `ValueError` (`Except.error`) as soon as
one request has a choice spanning more than one token. `encNS` models
`tok_encode(·, add_special_tokens=False)`. -/
def singleTokenValidate (mcss : Option Bool) (encNS : List Char → List Nat)
    (requests : List (List (List Char))) : Except String (List (List (List Nat))) :=
  mapMExcept
    (fun choices =>
      match mapMOption (checkContinuationsStartSpace mcss) choices with
      | none => Except.error "IndexError"
      | some adjusted =>
          let encs := adjusted.map encNS
          if encs.any (fun c => 1 < c.length) then
            Except.error "single token multiple choice but one choice has several tokens"
          else
            Except.ok encs)
    requests

/-- `torch.nn.utils.rnn.pad_sequence(batch_first=True, padding_value=v)`:
right-pad every row to the longest row's length with `v`. -/
def padSequence (padValue : ℚ) (rows : List (List ℚ)) : List (List ℚ) :=
  let maxLen := (rows.map (fun r => r.length)).foldr max 0
  rows.map (fun r => r ++ List.replicate (maxLen - r.length) padValue)

/-- The probability-vector padding step of `_loglikelihood_single_token`
(source line 1463): per-row candidate log-probability vectors are padded to
a common width with the finite sentinel `-65504.0`. -/
def singleTokenPadProbs (rows : List (List ℚ)) : List (List ℚ) :=
  padSequence (-65504) rows

/-- Structural worker for `stripOccurrences`: the fuel bounds the number of
scanning steps (one unit per consumed character suffices, since a match
consumes at least one character). -/
def stripOccurrencesAux (pat : List Char) : Nat → List Char → List Char
  | _, [] => []
  | 0, s => s
  | fuel + 1, c :: t =>
      if pat ≠ [] ∧ pat.isPrefixOf (c :: t) then
        stripOccurrencesAux pat fuel ((c :: t).drop pat.length)
      else
        c :: stripOccurrencesAux pat fuel t

/-- Python `s.replace(pat, "")`: remove every non-overlapping occurrence of
`pat` from `s`, scanning left to right; an empty pattern leaves the string
unchanged (Python inserts the empty replacement, which is a no-op). Used by
`tokenize_row` to strip the prompt out of the completions (source lines
1649-1650). -/
def stripOccurrences (pat s : List Char) : List Char :=
  stripOccurrencesAux pat s.length s

/-- `build_tokenized_answer` (source lines 1511-1559): tokenize
prompt+answer jointly, fail (`ValueError`, modelled as `none`) when the
prompt-only encoding is longer than the joint encoding, and back the
prompt/answer boundary off by one position when the joint encoding's prompt
prefix differs from the prompt-only encoding (token merging). Returns
(prompt tokens, answer tokens). `enc` models
`tokenizer(·, add_special_tokens=False)["input_ids"]`. -/
def build_tokenized_answer (enc : List Char → List Int) (prompt answer : List Char) :
    Option (List Int × List Int) :=
  let full := enc (prompt ++ answer)
  let promptIds := enc prompt
  if full.length < promptIds.length then
    none
  else
    let startIdx := if full.take promptIds.length == promptIds then promptIds.length
      else promptIds.length - 1
    some (full.take startIdx, full.drop startIdx)

/-- The two prompt-truncation policies of `tokenize_row` (`keep_start`
keeps the earliest prompt tokens, `keep_end` the latest; source lines
1690-1697). -/
inductive TruncationMode where
  | keepStart
  | keepEnd
deriving DecidableEq, Repr

/-- The output of `tokenize_row` restricted to the id and label fields the
claims are about (the attention-mask fields, which are all-ones lists of
the same lengths, are omitted). -/
structure TokenizedRow where
  prompt_input_ids : List Int
  chosen_input_ids : List Int
  chosen_labels : List Int
  rejected_input_ids : List Int
  rejected_labels : List Int
deriving DecidableEq, Repr

/-- `tokenize_row` (source lines 1630-1731): strip the prompt out of both
completions, build the tokenized answers, prepend BOS to every prompt
sequence and append EOS to every answer sequence, truncate the prompt (then
the answer) when the combined sequence exceeds `maxLength`, and build labels
masking every prompt position with `labelPad`. -/
def tokenize_row (enc : List Char → List Int) (bosId eosId labelPad : Int)
    (maxLength maxPromptLength : Nat) (mode : TruncationMode)
    (prompt chosen0 rejected0 : List Char) : Option TokenizedRow :=
  let chosen := stripOccurrences prompt chosen0
  let rejected := stripOccurrences prompt rejected0
  match build_tokenized_answer enc prompt chosen,
      build_tokenized_answer enc prompt rejected with
  | some (pc, ac), some (pr, ar) =>
      let promptC := bosId :: pc
      let promptR := bosId :: pr
      let promptP := bosId :: enc prompt
      let ansC := ac ++ [eosId]
      let ansR := ar ++ [eosId]
      let longer := max ansC.length ansR.length
      let truncPrompt := fun (p : List Int) =>
        if maxLength < p.length + longer then
          match mode with
          | TruncationMode.keepStart => p.take maxPromptLength
          | TruncationMode.keepEnd => pyTakeLast p maxPromptLength
        else p
      let promptC := truncPrompt promptC
      let promptR := truncPrompt promptR
      let promptP := truncPrompt promptP
      let truncAns := fun (p a : List Int) =>
        if maxLength < p.length + longer then
          pySliceUpto a ((maxLength : Int) - (maxPromptLength : Int))
        else a
      let ansC := truncAns promptC ansC
      let ansR := truncAns promptR ansR
      let chosenSeq := promptC ++ ansC
      let rejectedSeq := promptR ++ ansR
      some
        { prompt_input_ids := promptP
          chosen_input_ids := chosenSeq
          chosen_labels :=
            List.replicate promptC.length labelPad ++ chosenSeq.drop promptC.length
          rejected_input_ids := rejectedSeq
          rejected_labels :=
            List.replicate promptR.length labelPad ++ rejectedSeq.drop promptR.length }
  | _, _ => none

/-- Modelled from the spec: the request dataset's length-sort permutation
(`GenerativeTaskDataset` / `LoglikelihoodDataset` in the `lighteval.data`
module, which is absent from `src/`). Spec §4.1: "within each group,
requests are sorted by descending combined context+generation length". The
permutation lists, in processing order, the original index of each
request. -/
def sortPermutation (keys : List Nat) : List Nat :=
  List.insertionSort (fun i j => keys.getD j 0 ≤ keys.getD i 0) (List.range keys.length)

/-- Modelled from the spec: `get_original_order` (in the `lighteval.data`
module, absent from `src/`). Spec §4.1: "`get_original_order` applies the
inverse of the sort permutation to return results in caller order": the
entry returned at original position `j` is the processed result of the
request whose original index is `j`. -/
def get_original_order (perm : List Nat) (results : List α) (d : α) : List α :=
  (List.range perm.length).map (fun j => results.getD (perm.indexOf j) d)

/-- The untruncated model-input row of request `i` in non-single-token
mode: tokenized context followed by the continuation minus its final
token. -/
def logprobOrigRow (batch : List LLRequest) (i : Nat) : List Nat :=
  (batch.getD i ⟨[], []⟩).tokenized_context
    ++ (batch.getD i ⟨[], []⟩).tokenized_continuation.dropLast

/-! ## Helper lemmas -/

theorem mapMOption_length {α β : Type} {f : α → Option β} :
    ∀ {l : List α} {res : List β}, mapMOption f l = some res → res.length = l.length := by
  intro l
  induction l with
  | nil =>
      intro res h
      simp [mapMOption] at h
      simp [← h]
  | cons a t ih =>
      intro res h
      simp only [mapMOption] at h
      cases hfa : f a with
      | none => simp [hfa] at h
      | some b =>
          cases hft : mapMOption f t with
          | none => simp [hfa, hft] at h
          | some bs =>
              simp [hfa, hft] at h
              simp [← h, ih hft]

theorem mapMOption_getD {α β : Type} {f : α → Option β} :
    ∀ {l : List α} {res : List β}, mapMOption f l = some res →
      ∀ i (d : α) (d' : β), i < l.length → f (l.getD i d) = some (res.getD i d') := by
  intro l
  induction l with
  | nil => intro res _ i d d' hi; simp at hi
  | cons a t ih =>
      intro res h i d d' hi
      simp only [mapMOption] at h
      cases hfa : f a with
      | none => simp [hfa] at h
      | some b =>
          cases hft : mapMOption f t with
          | none => simp [hfa, hft] at h
          | some bs =>
              simp [hfa, hft] at h
              cases i with
              | zero => simp [← h, hfa]
              | succ j =>
                  simp only [List.length_cons] at hi
                  simpa [← h] using ih hft j d d' (by omega)

/-! ## C10: generation budget of `greedy_until` -/

/-- C10 counterexample: the claim says the generation budget "is always at
least 1" when the context fits; but with no requested generation size and a
context exactly filling the model window the code computes a budget of 0. -/
theorem C10_counterexample :
    computeMaxNewTokens 4 4 none = 0 ∧ ¬ (1 ≤ computeMaxNewTokens 4 4 none) := by
  decide

/-- C10 (amended): in `greedy_until`, a padded context wider than the model
maximum forces a budget of exactly 1; otherwise a `None` generation size
yields exactly `max_length - context_size` (which may be 0), and a
requested size `g` yields `min (max_length - context_size) g` raised to a
minimum of 1 (which may exceed the remaining space when that space is 0). -/
theorem C10_generation_budget (maxLength contextSize : Nat) (g : Int) :
    (maxLength < contextSize →
      computeMaxNewTokens maxLength contextSize none = 1 ∧
      computeMaxNewTokens maxLength contextSize (some g) = 1) ∧
    (contextSize ≤ maxLength →
      computeMaxNewTokens maxLength contextSize none = (maxLength : Int) - contextSize ∧
      computeMaxNewTokens maxLength contextSize (some g)
        = max (min ((maxLength : Int) - contextSize) g) 1) := by
  constructor
  · intro hlt
    constructor <;> simp [computeMaxNewTokens, hlt]
  · intro hle
    have hnot : ¬ (maxLength < contextSize) := by omega
    constructor
    · simp [computeMaxNewTokens, hnot]
    · simp only [computeMaxNewTokens, hnot, if_false]
      split <;> omega

/-- Witness for `C10_generation_budget` at concrete inputs. -/
theorem C10_generation_budget_witness :
    computeMaxNewTokens 5 3 none = 2 ∧ computeMaxNewTokens 5 6 (some 4) = 1 := by
  constructor
  · have h := ((C10_generation_budget 5 3 4).2 (by decide)).1
    simpa using h
  · have h := ((C10_generation_budget 5 6 4).1 (by decide)).2
    simpa using h

/-! ## C9: single-token probability padding sentinel -/

/-- C9 counterexample: the padded positions do hold exactly `-65504.0`, but
the claim that "every real candidate log-probability is strictly greater
than that sentinel" fails: nothing in the code bounds the gathered
log-probabilities, and a row holding `-70000` keeps that value at a real
(non-padded) position. -/
theorem C9_counterexample :
    singleTokenPadProbs [[-70000], [0, 0]] = [[-70000, -65504], [0, 0]] ∧
    ¬ (-65504 < ((singleTokenPadProbs [[-70000], [0, 0]]).getD 0 []).getD 0 0) := by
  constructor
  · decide
  · decide

/-- C9 (amended): in the single-token scoring path, per-row candidate
log-probability vectors of differing choice counts are padded to a common
width with the finite sentinel `-65504.0` (not negative infinity): every
padded position holds exactly `-65504.0` and every real candidate position
keeps its gathered log-probability unchanged (so it exceeds the sentinel
exactly when the gathered value does, which the code assumes but never
enforces). -/
theorem C9_single_token_padding (rows : List (List ℚ)) (i j : Nat)
    (hi : i < rows.length) :
    (((rows.getD i []).length ≤ j → j < (rows.map (fun r => r.length)).foldr max 0 →
        ((singleTokenPadProbs rows).getD i []).getD j 0 = -65504)) ∧
    ((j < (rows.getD i []).length →
        ((singleTokenPadProbs rows).getD i []).getD j 0 = (rows.getD i []).getD j 0)) := by
  have hrow : (singleTokenPadProbs rows).getD i []
      = (rows.getD i []) ++ List.replicate
          (((rows.map (fun r => r.length)).foldr max 0) - (rows.getD i []).length) (-65504) := by
    simp only [singleTokenPadProbs, padSequence]
    rw [List.getD_eq_getElem?_getD, List.getElem?_map]
    rw [List.getElem?_eq_getElem hi]
    simp [List.getD_eq_getElem?_getD, List.getElem?_eq_getElem hi]
  constructor
  · intro hlen hmax
    rw [hrow, List.getD_eq_getElem?_getD, List.getElem?_append_right hlen]
    rw [List.getElem?_replicate]
    have hlt : j - (rows.getD i []).length
        < (rows.map (fun r => r.length)).foldr max 0 - (rows.getD i []).length := by omega
    simp only [List.getD_eq_getElem?_getD] at hlt
    simp [hlt]
  · intro hj
    rw [hrow, List.getD_eq_getElem?_getD, List.getElem?_append_left hj]
    rw [← List.getD_eq_getElem?_getD]

/-- Witness for `C9_single_token_padding` at concrete inputs. -/
theorem C9_single_token_padding_witness :
    ((singleTokenPadProbs [[(1 : ℚ)], [2, 3]]).getD 0 []).getD 1 0 = -65504 ∧
    ((singleTokenPadProbs [[(1 : ℚ)], [2, 3]]).getD 0 []).getD 0 0 = 1 := by
  constructor
  · exact (C9_single_token_padding [[(1 : ℚ)], [2, 3]] 0 1 (by decide)).1
      (by decide) (by decide)
  · have h := (C9_single_token_padding [[(1 : ℚ)], [2, 3]] 0 0 (by decide)).2 (by decide)
    simpa using h

/-! ## C6: starting batch size across processing groups -/

/-- C6 counterexample: the claim says every batched scoring path probes the
next group from twice the size that succeeded for the current group; but
`_loglikelihood_single_token` never passes its running `starting_batch_size`
to `_get_batch_size`, so with a probe that succeeds at size 1 for the first
group the second group still starts from the default 512, not 2. -/
theorem C6_counterexample :
    singleTokenStartingSizes 2 = [512, 512] ∧
    2 * get_batch_size (fun _ => 1) 0 512 = 2 ∧
    (singleTokenStartingSizes 2).getD 1 0 ≠ 2 * get_batch_size (fun _ => 1) 0 512 := by
  refine ⟨rfl, rfl, ?_⟩
  decide

/-- C6 (amended): in `greedy_until` and `_loglikelihood_tokens`, each group
after the first probes from twice the batch size the previous group used;
`_loglikelihood_single_token` instead probes every group from the default
starting size 512, ignoring previous successes. -/
theorem C6_starting_batch_sizes (probe : Nat → Nat) (overrideBs : Int) :
    ∀ (i n s : Nat), i + 1 < n →
      (chainedStartingSizes probe overrideBs n s).getD (i + 1) 0
        = 2 * get_batch_size probe overrideBs
            ((chainedStartingSizes probe overrideBs n s).getD i 0) ∧
      (singleTokenStartingSizes n).getD (i + 1) 0 = 512 := by
  intro i
  induction i with
  | zero =>
      intro n s hn
      match n, hn with
      | (m + 2), _ =>
          refine ⟨?_, ?_⟩
          · simp [chainedStartingSizes]
          · simp [singleTokenStartingSizes, List.getD_eq_getElem?_getD,
              List.getElem?_replicate]
  | succ k ih =>
      intro n s hn
      match n, hn with
      | (m + 1), hn =>
          have hm : k + 1 < m := by omega
          refine ⟨?_, ?_⟩
          · have h := (ih m (2 * get_batch_size probe overrideBs s) hm).1
            simpa [chainedStartingSizes] using h
          · simp [singleTokenStartingSizes, List.getD_eq_getElem?_getD,
              List.getElem?_replicate, hn]

/-- Witness for `C6_starting_batch_sizes` at concrete inputs. -/
theorem C6_starting_batch_sizes_witness :
    (chainedStartingSizes (fun s => s) 0 3 512).getD 1 0
      = 2 * get_batch_size (fun s => s) 0
          ((chainedStartingSizes (fun s => s) 0 3 512).getD 0 0) ∧
    (singleTokenStartingSizes 3).getD 1 0 = 512 :=
  C6_starting_batch_sizes (fun s => s) 0 0 3 512 (by decide)

/-! ## C2: `input_mask` semantics -/

/-- C2 failing case: `prepare_batch_logprob` sets the mask to
`tokens == pad_token_id`, which is `true` at the padding position and
`false` at the real-token position — the opposite of the claimed
"1 exactly at real tokens". With pad id 0, context `[5]`, continuation
`[9]` (so the model-input row is `[5]`), `max_context = padding_length = 2`,
the padded row is `[5, 0]` and the produced mask is `[false, true]`. -/
theorem C2_mask_inverted :
    (prepare_batch_logprob 0 2 2 false [⟨[5], [9]⟩]).map (fun b => b.input_ids)
      = some [[5, 0]] ∧
    (prepare_batch_logprob 0 2 2 false [⟨[5], [9]⟩]).map (fun b => b.input_mask)
      = some [[false, true]] ∧
    (prepare_batch_logprob 0 2 2 false [⟨[5], [9]⟩]).map (fun b => b.input_lengths)
      = some [1] := by
  refine ⟨rfl, rfl, rfl⟩

/-! ## C8: single-token multiple-choice precondition -/

theorem mapMOption_some_id {α : Type} : ∀ (l : List α), mapMOption some l = some l := by
  intro l
  induction l with
  | nil => rfl
  | cons a t ih => simp [mapMOption, ih]

/-- C8: `loglikelihood_single_token` raises the fatal `ValueError` exactly
when some request has a choice whose tokenization without special tokens
spans more than one token; when every choice tokenizes to exactly one token
the validation succeeds and returns every request's encoded choices. -/
theorem C8_single_token_precondition (encNS : List Char → List Nat)
    (requests : List (List (List Char))) :
    ((∃ e, singleTokenValidate none encNS requests = Except.error e) ↔
      ∃ req ∈ requests, ∃ ch ∈ req, 1 < (encNS ch).length) ∧
    ((∀ req ∈ requests, ∀ ch ∈ req, (encNS ch).length = 1) →
      singleTokenValidate none encNS requests
        = Except.ok (requests.map (fun cs => cs.map encNS))) := by
  have hstep : ∀ (choices : List (List Char)),
      (match mapMOption (checkContinuationsStartSpace none) choices with
        | none => Except.error "IndexError"
        | some adjusted =>
            let encs := adjusted.map encNS
            if encs.any (fun c => 1 < c.length) then
              (Except.error
                "single token multiple choice but one choice has several tokens" :
                Except String (List (List Nat)))
            else
              Except.ok encs)
        = (if (choices.map encNS).any (fun c => 1 < c.length) then
            Except.error
              "single token multiple choice but one choice has several tokens"
          else Except.ok (choices.map encNS)) := by
    intro choices
    have hid : mapMOption (checkContinuationsStartSpace none) choices = some choices := by
      have : checkContinuationsStartSpace none = some := rfl
      rw [this, mapMOption_some_id]
    rw [hid]
  induction requests with
  | nil =>
      constructor
      · constructor
        · rintro ⟨e, he⟩
          simp [singleTokenValidate, mapMExcept] at he
        · rintro ⟨req, hreq, _⟩
          simp at hreq
      · intro _
        rfl
  | cons req rest ih =>
      have hbody := hstep req
      by_cases hbad : (req.map encNS).any (fun c => 1 < c.length) = true
      · constructor
        · constructor
          · intro _
            refine ⟨req, by simp, ?_⟩
            rcases List.any_eq_true.mp hbad with ⟨c, hc, hlen⟩
            rcases List.mem_map.mp hc with ⟨ch, hch, rfl⟩
            exact ⟨ch, hch, by simpa using hlen⟩
          · intro _
            refine ⟨"single token multiple choice but one choice has several tokens", ?_⟩
            simp only [singleTokenValidate, mapMExcept, hbody, hbad, if_true]
        · intro hall
          exfalso
          rcases List.any_eq_true.mp hbad with ⟨c, hc, hlen⟩
          rcases List.mem_map.mp hc with ⟨ch, hch, rfl⟩
          have := hall req (by simp) ch hch
          simp at hlen
          omega
      · have hok : (match mapMOption (checkContinuationsStartSpace none) req with
            | none => Except.error "IndexError"
            | some adjusted =>
                let encs := adjusted.map encNS
                if encs.any (fun c => 1 < c.length) then
                  (Except.error
                    "single token multiple choice but one choice has several tokens" :
                    Except String (List (List Nat)))
                else
                  Except.ok encs)
            = Except.ok (req.map encNS) := by
          rw [hbody]
          simp [hbad]
        constructor
        · constructor
          · rintro ⟨e, he⟩
            simp only [singleTokenValidate, mapMExcept, hok] at he
            have htail : ∃ e, singleTokenValidate none encNS rest = Except.error e := by
              cases htl : singleTokenValidate none encNS rest with
              | error e' => exact ⟨e', rfl⟩
              | ok bs =>
                  exfalso
                  simp only [singleTokenValidate] at htl
                  rw [htl] at he
                  simp at he
            rcases ih.1.mp htail with ⟨r, hr, hch⟩
            exact ⟨r, List.mem_cons_of_mem _ hr, hch⟩
          · rintro ⟨r, hr, ch, hch, hlen⟩
            rcases List.mem_cons.mp hr with hr | hr
            · exfalso
              subst hr
              have : (r.map encNS).any (fun c => 1 < c.length) = true :=
                List.any_eq_true.mpr ⟨encNS ch, List.mem_map.mpr ⟨ch, hch, rfl⟩, by simpa using hlen⟩
              exact hbad this
            · rcases ih.1.mpr ⟨r, hr, ch, hch, hlen⟩ with ⟨e, he⟩
              refine ⟨e, ?_⟩
              simp only [singleTokenValidate, mapMExcept, hok]
              simp only [singleTokenValidate] at he
              rw [he]
        · intro hall
          have htail := ih.2 (fun r hr ch hch => hall r (List.mem_cons_of_mem _ hr) ch hch)
          simp only [singleTokenValidate, mapMExcept, hok]
          simp only [singleTokenValidate] at htail
          rw [htail]
          simp

/-- Witness for `C8_single_token_precondition` at concrete inputs. -/
theorem C8_single_token_precondition_witness :
    singleTokenValidate none (fun s => [s.length]) [[['a'], ['b', 'c']]]
      = Except.ok [[[1], [2]]] := by
  have h := (C8_single_token_precondition (fun s => [s.length]) [[['a'], ['b', 'c']]]).2
    (by intro req hreq ch hch; rfl)
  simpa using h

/-! ## C3: log-likelihood batch preparation -/

/-- C3: for every request prepared by `prepare_batch_logprob` in
non-single-token mode, the model-input row is context + continuation minus
its last token, truncated from the left to at most `max_context` tokens and
right-padded with the pad token to `padding_length` columns; the truncated
count is `max(original length - max_context, 0)`, the padded count is
`padding_length` minus the kept length, and
`input_lengths[i] + padded[i]` equals the column count. -/
theorem C3_prepare_batch_logprob (padTokenId maxContext paddingLength : Nat)
    (batch : List LLRequest) (b : Batch) (i : Nat)
    (hb : prepare_batch_logprob padTokenId maxContext paddingLength false batch = some b)
    (hi : i < batch.length) (hmc : 0 < maxContext) :
    b.input_ids.getD i []
      = (logprobOrigRow batch i).drop ((logprobOrigRow batch i).length - maxContext)
        ++ List.replicate
            (paddingLength -
              ((logprobOrigRow batch i).drop
                ((logprobOrigRow batch i).length - maxContext)).length)
            padTokenId ∧
    ((logprobOrigRow batch i).drop ((logprobOrigRow batch i).length - maxContext)).length
      ≤ maxContext ∧
    (b.truncated.getD i 0 : Int)
      = max (((logprobOrigRow batch i).length : Int) - (maxContext : Int)) 0 ∧
    b.padded.getD i 0 = paddingLength - b.input_lengths.getD i 0 ∧
    b.input_lengths.getD i 0 + b.padded.getD i 0 = paddingLength ∧
    (b.input_ids.getD i []).length = paddingLength := by
  rcases Option.map_eq_some'.mp hb with ⟨rows, hrows, hbdef⟩
  have hlen_inputs : (logprobInputs false batch).length = batch.length := by
    simp [logprobInputs]
  have hrowslen : rows.length = batch.length := by
    rw [mapMOption_length hrows, hlen_inputs]
  have hgetD : (logprobInputs false batch).getD i [] = logprobOrigRow batch i := by
    simp only [logprobInputs, Bool.false_eq_true, if_false]
    rw [List.getD_eq_getElem?_getD, List.getElem?_map, List.getElem?_eq_getElem hi]
    simp [logprobOrigRow, List.getD_eq_getElem?_getD, List.getElem?_eq_getElem hi]
  have hrow := mapMOption_getD hrows i [] ⟨[], [], 0, 0, 0⟩ (by rw [hlen_inputs]; exact hi)
  rw [hgetD] at hrow
  simp only [prepareRow] at hrow
  split at hrow
  · exact absurd hrow (by simp)
  · rename_i hpad
    have hrowEq := Option.some.inj hrow
    have hik : i < rows.length := by omega
    have hids : b.input_ids.getD i [] = (rows.getD i ⟨[], [], 0, 0, 0⟩).tokens := by
      rw [← hbdef]
      rw [List.getD_eq_getElem?_getD, List.getElem?_map, List.getElem?_eq_getElem hik]
      simp [List.getD_eq_getElem, hik]
    have htrunc : b.truncated.getD i 0 = (rows.getD i ⟨[], [], 0, 0, 0⟩).truncatedCount := by
      rw [← hbdef]
      rw [List.getD_eq_getElem?_getD, List.getElem?_map, List.getElem?_eq_getElem hik]
      simp [List.getD_eq_getElem, hik]
    have hpadded : b.padded.getD i 0 = (rows.getD i ⟨[], [], 0, 0, 0⟩).paddedCount := by
      rw [← hbdef]
      rw [List.getD_eq_getElem?_getD, List.getElem?_map, List.getElem?_eq_getElem hik]
      simp [List.getD_eq_getElem, hik]
    have hlens : b.input_lengths.getD i 0 = (rows.getD i ⟨[], [], 0, 0, 0⟩).inputLength := by
      rw [← hbdef]
      rw [List.getD_eq_getElem?_getD, List.getElem?_map, List.getElem?_eq_getElem hik]
      simp [List.getD_eq_getElem, hik]
    have hkept_drop : pyTakeLast (logprobOrigRow batch i) maxContext
        = (logprobOrigRow batch i).drop ((logprobOrigRow batch i).length - maxContext) := by
      unfold pyTakeLast
      rw [if_neg (by omega)]
    have hkeptlen : (pyTakeLast (logprobOrigRow batch i) maxContext).length ≤ maxContext := by
      rw [hkept_drop, List.length_drop]
      omega
    rw [← hrowEq] at hids htrunc hpadded hlens
    simp only at hids htrunc hpadded hlens
    refine ⟨?_, ?_, ?_, ?_, ?_, ?_⟩
    · rw [hids, hkept_drop]
    · rw [← hkept_drop]; exact hkeptlen
    · rw [htrunc]
      omega
    · rw [hpadded, hlens]
    · rw [hpadded, hlens]
      have := hkeptlen
      omega
    · rw [hids]
      simp only [List.length_append, List.length_replicate]
      omega

/-- Witness for `C3_prepare_batch_logprob` at concrete inputs. -/
theorem C3_prepare_batch_logprob_witness :
    (({ input_ids := [[5, 7, 0], [3, 4, 7]],
        input_mask := [[false, false, true], [false, false, false]],
        input_lengths := [2, 3], truncated := [0, 2], padded := [1, 0] } :
        Batch).truncated.getD 1 0 : Int)
      = max (((logprobOrigRow [⟨[5], [7, 9]⟩, ⟨[1, 2, 3, 4], [7, 9]⟩] 1).length : Int)
          - (3 : Int)) 0 :=
  (C3_prepare_batch_logprob 0 3 3 [⟨[5], [7, 9]⟩, ⟨[1, 2, 3, 4], [7, 9]⟩]
    { input_ids := [[5, 7, 0], [3, 4, 7]],
      input_mask := [[false, false, true], [false, false, false]],
      input_lengths := [2, 3], truncated := [0, 2], padded := [1, 0] } 1
    (by decide) (by decide) (by decide)).2.2.1

/-! ## C1: order preservation -/

/-- C1 (spec-modelled): submitting any request list to a batched entry
point, which processes requests in length-sorted order and then applies
`get_original_order`, returns exactly the responses that one-at-a-time
processing in caller order would produce: the caller never observes the
internal sort order. `process` is the per-request response computation,
`keyFn` the sort key. -/
theorem C1_order_preservation {R S : Type} (requests : List R) (keyFn : R → Nat)
    (process : R → S) (dR : R) (dS : S) :
    get_original_order (sortPermutation (requests.map keyFn))
      ((sortPermutation (requests.map keyFn)).map (fun k => process (requests.getD k dR)))
      dS
      = requests.map process := by
  have hpermPerm : List.Perm (sortPermutation (requests.map keyFn))
      (List.range (requests.map keyFn).length) :=
    List.perm_insertionSort _ _
  have hn : (requests.map keyFn).length = requests.length := by simp
  have hlenp : (sortPermutation (requests.map keyFn)).length = requests.length := by
    rw [hpermPerm.length_eq, List.length_range, hn]
  have hmem : ∀ j, j < requests.length → j ∈ sortPermutation (requests.map keyFn) := by
    intro j hj
    exact hpermPerm.mem_iff.mpr (List.mem_range.mpr (by omega))
  apply List.ext_getElem
  · simp only [get_original_order, List.length_map, List.length_range]
    exact hlenp
  · intro j h1 h2
    have hj : j < requests.length := by
      simpa using h2
    have hjmem : j ∈ sortPermutation (requests.map keyFn) := hmem j hj
    have hidx : (sortPermutation (requests.map keyFn)).indexOf j
        < (sortPermutation (requests.map keyFn)).length :=
      List.indexOf_lt_length.mpr hjmem
    simp only [get_original_order, List.getElem_map, List.getElem_range]
    rw [List.getD_eq_getElem?_getD, List.getElem?_map, List.getElem?_eq_getElem hidx]
    simp only [Option.map_some', Option.getD_some]
    rw [List.getElem_indexOf hidx]
    congr 1
    exact List.getD_eq_getElem requests dR hj

/-! ## C7: multi-token stop-sequence criterion -/

theorem eosStepDone_length (decode : List Nat → List Char) (sequence : List Char)
    (seqIdLen initialLen : Nat) (done : List Bool) (snap : List (List Nat)) :
    (eosStepDone decode sequence seqIdLen initialLen done snap).length
      = min done.length snap.length := by
  simp [eosStepDone]

theorem eosStepDone_getD (decode : List Nat → List Char) (sequence : List Char)
    (seqIdLen initialLen : Nat) (done : List Bool) (snap : List (List Nat))
    (i : Nat) (hid : i < done.length) (his : i < snap.length) :
    (eosStepDone decode sequence seqIdLen initialLen done snap).getD i false
      = (done.getD i false
          || eosHit decode sequence seqIdLen initialLen (snap.getD i [])) := by
  have hiz : i < (done.zip snap).length := by
    simp [List.length_zip]
    omega
  unfold eosStepDone
  rw [List.getD_eq_getElem?_getD, List.getElem?_map, List.getElem?_eq_getElem hiz]
  rw [List.getElem_zip]
  rw [List.getD_eq_getElem done false hid, List.getD_eq_getElem snap [] his]
  cases hdi : done[i] <;> simp [hdi]

theorem eosRunDone_length (decode : List Nat → List Char) (sequence : List Char)
    (seqIdLen initialLen : Nat) :
    ∀ (snaps : List (List (List Nat))) (done : List Bool),
      (∀ s ∈ snaps, s.length = done.length) →
      (eosRunDone decode sequence seqIdLen initialLen done snaps).length = done.length := by
  intro snaps
  induction snaps with
  | nil => intro done _; rfl
  | cons s rest ih =>
      intro done hlen
      have hs : s.length = done.length := hlen s (by simp)
      have hstep : (eosStepDone decode sequence seqIdLen initialLen done s).length
          = done.length := by
        rw [eosStepDone_length, hs]
        omega
      simp only [eosRunDone]
      rw [ih _ (by intro x hx; rw [hstep]; exact hlen x (by simp [hx]))]
      exact hstep

theorem eosRunDone_getD (decode : List Nat → List Char) (sequence : List Char)
    (seqIdLen initialLen : Nat) :
    ∀ (snaps : List (List (List Nat))) (done : List Bool) (i : Nat),
      i < done.length →
      (∀ s ∈ snaps, s.length = done.length) →
      (eosRunDone decode sequence seqIdLen initialLen done snaps).getD i false
        = (done.getD i false
            || snaps.any
                (fun s => eosHit decode sequence seqIdLen initialLen (s.getD i []))) := by
  intro snaps
  induction snaps with
  | nil => intro done i hi _; simp [eosRunDone]
  | cons s rest ih =>
      intro done i hi hlen
      have hs : s.length = done.length := hlen s (by simp)
      have hstep : (eosStepDone decode sequence seqIdLen initialLen done s).length
          = done.length := by
        rw [eosStepDone_length, hs]
        omega
      simp only [eosRunDone]
      rw [ih _ i (by omega) (by intro x hx; rw [hstep]; exact hlen x (by simp [hx]))]
      rw [eosStepDone_getD _ _ _ _ _ _ i hi (by omega)]
      simp [Bool.or_assoc]

theorem all_id_getD_iff (l : List Bool) :
    l.all (fun b => b) = true ↔ ∀ i < l.length, l.getD i false = true := by
  rw [List.all_eq_true]
  constructor
  · intro h i hi
    rw [List.getD_eq_getElem l false hi]
    exact h _ (List.getElem_mem hi)
  · intro h x hx
    rcases List.mem_iff_getElem.mp hx with ⟨i, hi, rfl⟩
    have := h i hi
    rwa [List.getD_eq_getElem l false hi] at this

theorem eosRunDone_append (decode : List Nat → List Char) (sequence : List Char)
    (seqIdLen initialLen : Nat) :
    ∀ (xs ys : List (List (List Nat))) (done : List Bool),
      eosRunDone decode sequence seqIdLen initialLen done (xs ++ ys)
        = eosRunDone decode sequence seqIdLen initialLen
            (eosRunDone decode sequence seqIdLen initialLen done xs) ys := by
  intro xs
  induction xs with
  | nil => intro ys done; rfl
  | cons x rest ih => intro ys done; simp only [List.cons_append, eosRunDone]; exact ih ys _

theorem any_take_getD_iff {α : Type} (l : List α) (p : α → Bool) (n : Nat) (d : α) :
    (l.take n).any p = true ↔ ∃ s, s < n ∧ s < l.length ∧ p (l.getD s d) = true := by
  rw [List.any_eq_true]
  constructor
  · rintro ⟨x, hx, hp⟩
    rcases List.mem_iff_getElem.mp hx with ⟨s, hs, rfl⟩
    have hsl : s < l.length := by
      have := hs
      simp [List.length_take] at this
      omega
    have hsn : s < n := by
      have := hs
      simp [List.length_take] at this
      omega
    refine ⟨s, hsn, hsl, ?_⟩
    rw [List.getD_eq_getElem l d hsl]
    rwa [List.getElem_take] at hp
  · rintro ⟨s, hsn, hsl, hp⟩
    refine ⟨l[s], ?_, ?_⟩
    · have hs : s < (l.take n).length := by
        simp [List.length_take]
        omega
      have : (l.take n)[s] = l[s] := List.getElem_take l
      exact this ▸ List.getElem_mem hs
    · rwa [List.getD_eq_getElem l d hsl] at hp

/-- C7: for every generation trace, the stop-sequence criterion signals a
halt at step `t` exactly when every row is done after that step; a row is
done after step `t` exactly when some step `s ≤ t` decoded a trailing
window containing the stop fragment (so it becomes done at the first such
step); and a done row never reverts at a later step. -/
theorem C7_stop_criterion (decode : List Nat → List Char) (sequence : List Char)
    (seqIdLen initialLen batchSize : Nat) (trace : List (List (List Nat)))
    (t i : Nat) (hlen : ∀ s ∈ trace, s.length = batchSize)
    (hi : i < batchSize) (ht : t < trace.length) :
    (eosStepHalt decode sequence seqIdLen initialLen
        (eosRunDone decode sequence seqIdLen initialLen
          (List.replicate batchSize false) (trace.take t))
        (trace.getD t []) = true ↔
      ∀ j < batchSize,
        (eosRunDone decode sequence seqIdLen initialLen
            (List.replicate batchSize false) (trace.take (t + 1))).getD j false = true) ∧
    ((eosRunDone decode sequence seqIdLen initialLen
          (List.replicate batchSize false) (trace.take (t + 1))).getD i false = true ↔
      ∃ s, s ≤ t ∧
        eosHit decode sequence seqIdLen initialLen ((trace.getD s []).getD i []) = true) ∧
    ((eosRunDone decode sequence seqIdLen initialLen
          (List.replicate batchSize false) (trace.take (t + 1))).getD i false = true →
      ∀ u, (eosRunDone decode sequence seqIdLen initialLen
          (List.replicate batchSize false) (trace.take (t + 1 + u))).getD i false = true) := by
  have hlen' : ∀ n, ∀ s ∈ trace.take n, s.length = (List.replicate batchSize false).length := by
    intro n s hs
    rw [List.length_replicate]
    exact hlen s (List.mem_of_mem_take hs)
  have hrep : ∀ j, (List.replicate batchSize false).getD j false = false := by
    intro j
    rw [List.getD_eq_getElem?_getD, List.getElem?_replicate]
    split <;> rfl
  have hrunD : ∀ n j, j < batchSize →
      (eosRunDone decode sequence seqIdLen initialLen
          (List.replicate batchSize false) (trace.take n)).getD j false
        = (trace.take n).any
            (fun s => eosHit decode sequence seqIdLen initialLen (s.getD j [])) := by
    intro n j hj
    rw [eosRunDone_getD decode sequence seqIdLen initialLen (trace.take n)
      (List.replicate batchSize false) j (by simpa using hj) (hlen' n)]
    rw [hrep j]
    simp
  have hiff : ∀ n j, j < batchSize →
      ((eosRunDone decode sequence seqIdLen initialLen
          (List.replicate batchSize false) (trace.take n)).getD j false = true ↔
        ∃ s, s < n ∧ s < trace.length ∧
          eosHit decode sequence seqIdLen initialLen ((trace.getD s []).getD j []) = true) := by
    intro n j hj
    rw [hrunD n j hj]
    exact any_take_getD_iff trace _ n []
  have htake : trace.take (t + 1) = trace.take t ++ [trace.getD t []] := by
    rw [List.take_succ, List.getElem?_eq_getElem ht]
    rw [List.getD_eq_getElem trace [] ht]
    rfl
  refine ⟨?_, ?_, ?_⟩
  · -- halt signal ↔ all rows done after the step
    have hsucc : eosRunDone decode sequence seqIdLen initialLen
        (List.replicate batchSize false) (trace.take (t + 1))
        = eosStepDone decode sequence seqIdLen initialLen
            (eosRunDone decode sequence seqIdLen initialLen
              (List.replicate batchSize false) (trace.take t))
            (trace.getD t []) := by
      rw [htake, eosRunDone_append]
      rfl
    have hDlen : (eosRunDone decode sequence seqIdLen initialLen
        (List.replicate batchSize false) (trace.take t)).length = batchSize := by
      rw [eosRunDone_length decode sequence seqIdLen initialLen (trace.take t)
        (List.replicate batchSize false) (hlen' t)]
      exact List.length_replicate ..
    have hsnap : (trace.getD t []).length = batchSize := by
      rw [List.getD_eq_getElem trace [] ht]
      exact hlen _ (List.getElem_mem ht)
    have hslen : (eosStepDone decode sequence seqIdLen initialLen
        (eosRunDone decode sequence seqIdLen initialLen
          (List.replicate batchSize false) (trace.take t))
        (trace.getD t [])).length = batchSize := by
      rw [eosStepDone_length, hDlen, hsnap]
      omega
    unfold eosStepHalt
    rw [all_id_getD_iff, hslen, ← hsucc]
  · -- done after step t ↔ some step s ≤ t hit the row
    rw [hiff (t + 1) i hi]
    constructor
    · rintro ⟨s, hst, _, hhit⟩
      exact ⟨s, by omega, hhit⟩
    · rintro ⟨s, hst, hhit⟩
      exact ⟨s, by omega, by omega, hhit⟩
  · -- a done row never reverts
    intro hdone u
    rw [hiff (t + 1) i hi] at hdone
    rw [hiff (t + 1 + u) i hi]
    rcases hdone with ⟨s, hs1, hs2, hhit⟩
    exact ⟨s, by omega, hs2, hhit⟩

/-- Witness for `C7_stop_criterion` at concrete inputs. -/
theorem C7_stop_criterion_witness :
    (eosRunDone (fun l => l.map Char.ofNat) [Char.ofNat 97] 1 1
        (List.replicate 1 false) ([[[9, 97]]].take 1)).getD 0 false = true := by
  have h := (C7_stop_criterion (fun l => l.map Char.ofNat) [Char.ofNat 97] 1 1 1
    [[[9, 97]]] 0 0 (by intro s hs; simp at hs; simp [hs]) (by decide) (by decide)).2.1
  exact h.mpr ⟨0, by omega, by decide⟩

/-! ## C4: log-likelihood score extraction -/

theorem sum_zip_getD :
    ∀ (A : List (List ℚ)) (T : List Nat),
      ((A.zip T).map (fun p => p.1.getD p.2 0)).sum
        = ∑ j ∈ Finset.range (min A.length T.length),
            (A.getD j []).getD (T.getD j 0) 0 := by
  intro A
  induction A with
  | nil => intro T; simp
  | cons a A ih =>
      intro T
      cases T with
      | nil => simp
      | cons t T =>
          simp only [List.zip_cons_cons, List.map_cons, List.sum_cons, List.length_cons]
          have hmin : min (A.length + 1) (T.length + 1) = min A.length T.length + 1 := by
            omega
          rw [hmin, Finset.sum_range_succ']
          simp only [List.getD_cons_succ, List.getD_cons_zero]
          rw [ih T]
          ring

theorem list_nat_eq_iff_getD (xs ys : List Nat) (hl : xs.length = ys.length) :
    xs = ys ↔ ∀ j < xs.length, xs.getD j 0 = ys.getD j 0 := by
  constructor
  · intro h j _
    rw [h]
  · intro h
    apply List.ext_getElem hl
    intro j h1 h2
    have := h j h1
    rwa [List.getD_eq_getElem xs 0 h1, List.getD_eq_getElem ys 0 h2] at this

/-- C4: the score of a row of `_loglikelihood_tokens` is the sum, over the
scored positions, of the log-probability assigned to the corresponding
continuation token — the scored positions being the `contlen` logit
positions `[inplen - contlen, inplen)` when the continuation fits, and the
first `inplen` positions (scoring only the first `inplen` continuation
tokens) in rolling mode — and the greedy-match flag is true exactly when
the vocabulary argmax equals the continuation token at every scored
position. (`inplen = logitsRow.length` in rolling mode is the tensor
shape-compatibility precondition of the source's broadcast comparison.) -/
theorem C4_loglikelihood_scoring (logitsRow : List (List ℚ)) (inplen : Nat)
    (contToks : List Nat) (h1 : inplen ≤ logitsRow.length)
    (h2 : contToks.length ≤ inplen ∨ inplen = logitsRow.length) :
    (scoreRow logitsRow inplen contToks).1
      = ∑ j ∈ Finset.range (min contToks.length inplen),
          (logitsRow.getD (inplen - min contToks.length inplen + j) []).getD
            (contToks.getD j 0) 0 ∧
    ((scoreRow logitsRow inplen contToks).2 = true ↔
      ∀ j < min contToks.length inplen,
        argmaxIdx (logitsRow.getD (inplen - min contToks.length inplen + j) [])
          = contToks.getD j 0) := by
  by_cases hroll : inplen < contToks.length
  · -- rolling branch
    have heq : inplen = logitsRow.length := by
      rcases h2 with h2 | h2
      · omega
      · exact h2
    have hmin : min contToks.length inplen = inplen := by omega
    have hcontlen : (contToks.take inplen).length = inplen := by
      simp [List.length_take]
      omega
    have hcontD : ∀ j < inplen, (contToks.take inplen).getD j 0 = contToks.getD j 0 := by
      intro j hj
      have hj1 : j < (contToks.take inplen).length := by omega
      have hj2 : j < contToks.length := by omega
      rw [List.getD_eq_getElem _ 0 hj1, List.getD_eq_getElem _ 0 hj2]
      exact List.getElem_take contToks
    constructor
    · simp only [scoreRow, if_pos hroll]
      rw [sum_zip_getD, hmin]
      apply Finset.sum_congr
      · congr 1
        omega
      · intro j hj
        have hj' : j < inplen := by
          have := Finset.mem_range.mp hj
          omega
        rw [hcontD j hj']
        congr 2
        omega
    · simp only [scoreRow, if_pos hroll, hmin]
      rw [beq_iff_eq]
      rw [list_nat_eq_iff_getD _ _ (by rw [List.length_map, hcontlen]; omega)]
      constructor
      · intro h j hj
        have hjm : j < (logitsRow.map argmaxIdx).length := by
          simp
          omega
        have := h j hjm
        rw [hcontD j hj] at this
        have hjl : j < logitsRow.length := by omega
        rw [List.getD_eq_getElem?_getD, List.getElem?_map,
          List.getElem?_eq_getElem hjl] at this
        simp only [Option.map_some', Option.getD_some] at this
        have hidx : inplen - inplen + j = j := by omega
        rw [hidx]
        rw [List.getD_eq_getElem logitsRow [] hjl]
        exact this
      · intro h j hj
        have hj' : j < inplen := by
          simp at hj
          omega
        have := h j hj'
        have hidx : inplen - inplen + j = j := by omega
        rw [hidx] at this
        rw [hcontD j hj']
        have hjl : j < logitsRow.length := by omega
        rw [List.getD_eq_getElem?_getD, List.getElem?_map,
          List.getElem?_eq_getElem hjl]
        simp only [Option.map_some', Option.getD_some]
        rw [List.getD_eq_getElem logitsRow [] hjl] at this
        exact this
  · -- main branch: the continuation fits in the input
    have hfit : contToks.length ≤ inplen := by omega
    have hmin : min contToks.length inplen = contToks.length := by omega
    have hslen : ((logitsRow.take inplen).drop (inplen - contToks.length)).length
        = contToks.length := by
      simp [List.length_drop, List.length_take]
      omega
    have hslice : ∀ j < contToks.length,
        ((logitsRow.take inplen).drop (inplen - contToks.length)).getD j []
          = logitsRow.getD (inplen - contToks.length + j) [] := by
      intro j hj
      have hj1 : j < ((logitsRow.take inplen).drop (inplen - contToks.length)).length := by
        omega
      have hj2 : inplen - contToks.length + j < (logitsRow.take inplen).length := by
        simp [List.length_take]
        omega
      have hj3 : inplen - contToks.length + j < logitsRow.length := by omega
      rw [List.getD_eq_getElem _ [] hj1, List.getD_eq_getElem _ [] hj3]
      rw [List.getElem_drop]
      exact List.getElem_take logitsRow
    constructor
    · simp only [scoreRow, if_neg hroll]
      rw [sum_zip_getD]
      have e1 : min ((logitsRow.take inplen).drop (inplen - contToks.length)).length
          contToks.length = contToks.length := by
        rw [hslen]
        omega
      rw [e1, hmin]
      apply Finset.sum_congr rfl
      intro j hj
      have hj' : j < contToks.length := Finset.mem_range.mp hj
      rw [hslice j hj']
    · simp only [scoreRow, if_neg hroll, hmin]
      rw [beq_iff_eq]
      rw [list_nat_eq_iff_getD _ _ (by rw [List.length_map, hslen])]
      have hmaplen : (((logitsRow.take inplen).drop (inplen - contToks.length)).map
          argmaxIdx).length = contToks.length := by
        rw [List.length_map, hslen]
      constructor
      · intro h j hj
        have hjm : j < (((logitsRow.take inplen).drop (inplen - contToks.length)).map
            argmaxIdx).length := by omega
        have := h j hjm
        have hj1 : j < ((logitsRow.take inplen).drop (inplen - contToks.length)).length := by
          omega
        rw [List.getD_eq_getElem?_getD, List.getElem?_map,
          List.getElem?_eq_getElem hj1] at this
        simp only [Option.map_some', Option.getD_some] at this
        rw [← List.getD_eq_getElem _ [] hj1] at this
        rw [hslice j hj] at this
        exact this
      · intro h j hj
        have hj' : j < contToks.length := by omega
        have := h j hj'
        have hj1 : j < ((logitsRow.take inplen).drop (inplen - contToks.length)).length := by
          omega
        rw [List.getD_eq_getElem?_getD, List.getElem?_map,
          List.getElem?_eq_getElem hj1]
        simp only [Option.map_some', Option.getD_some]
        rw [← List.getD_eq_getElem _ [] hj1]
        rw [hslice j hj']
        exact this

/-- Witness for `C4_loglikelihood_scoring` at concrete inputs. -/
theorem C4_loglikelihood_scoring_witness :
    (scoreRow [[0, 1], [3, 2], [5, 9]] 3 [1, 0]).1
      = ∑ j ∈ Finset.range (min ([1, 0] : List Nat).length 3),
          (([[0, 1], [3, 2], [5, 9]] : List (List ℚ)).getD
              (3 - min ([1, 0] : List Nat).length 3 + j) []).getD
            (([1, 0] : List Nat).getD j 0) 0 :=
  (C4_loglikelihood_scoring [[0, 1], [3, 2], [5, 9]] 3 [1, 0]
    (by decide) (Or.inl (by decide))).1

/-! ## C5: preference-pair tokenization -/

theorem build_tokenized_answer_spec (enc : List Char → List Int) (prompt answer : List Char)
    (pa aa : List Int)
    (h : build_tokenized_answer enc prompt answer = some (pa, aa)) :
    pa ++ aa = enc (prompt ++ answer) ∧
    aa = (enc (prompt ++ answer)).drop
        (if (enc (prompt ++ answer)).take (enc prompt).length = enc prompt
          then (enc prompt).length else (enc prompt).length - 1) ∧
    pa = (enc (prompt ++ answer)).take
        (if (enc (prompt ++ answer)).take (enc prompt).length = enc prompt
          then (enc prompt).length else (enc prompt).length - 1) ∧
    pa.length ≤ (enc prompt).length ∧
    (pa = enc prompt ∨ pa.length = (enc prompt).length - 1) := by
  simp only [build_tokenized_answer] at h
  by_cases hlen : (enc (prompt ++ answer)).length < (enc prompt).length
  · rw [if_pos hlen] at h
    exact absurd h (by simp)
  · rw [if_neg hlen] at h
    by_cases hbeq : (enc (prompt ++ answer)).take (enc prompt).length = enc prompt
    · have hbeq' : ((enc (prompt ++ answer)).take (enc prompt).length == enc prompt) = true :=
        beq_iff_eq.mpr hbeq
      rw [if_pos hbeq'] at h
      have hpa : pa = (enc (prompt ++ answer)).take (enc prompt).length := by
        have := congrArg Prod.fst (Option.some.inj h)
        exact this.symm
      have haa : aa = (enc (prompt ++ answer)).drop (enc prompt).length := by
        have := congrArg Prod.snd (Option.some.inj h)
        exact this.symm
      refine ⟨?_, ?_, ?_, ?_, ?_⟩
      · rw [hpa, haa, List.take_append_drop]
      · rw [if_pos hbeq, haa]
      · rw [if_pos hbeq, hpa]
      · rw [hpa, List.length_take]
        omega
      · left
        rw [hpa, hbeq]
    · have hbeq' : ((enc (prompt ++ answer)).take (enc prompt).length == enc prompt) = false := by
        rw [beq_eq_false_iff_ne]
        exact hbeq
      rw [hbeq'] at h
      simp only [Bool.false_eq_true, if_false] at h
      have hpa : pa = (enc (prompt ++ answer)).take ((enc prompt).length - 1) := by
        have := congrArg Prod.fst (Option.some.inj h)
        exact this.symm
      have haa : aa = (enc (prompt ++ answer)).drop ((enc prompt).length - 1) := by
        have := congrArg Prod.snd (Option.some.inj h)
        exact this.symm
      refine ⟨?_, ?_, ?_, ?_, ?_⟩
      · rw [hpa, haa, List.take_append_drop]
      · rw [if_neg hbeq, haa]
      · rw [if_neg hbeq, hpa]
      · rw [hpa, List.length_take]
        omega
      · right
        rw [hpa, List.length_take]
        omega

/-- C5: for a preference-pair request whose combined sequences fit in the
model window, `tokenize_row` builds the chosen (and rejected) input ids as
BOS + prompt tokens + answer tokens + EOS, where the answer tokens are the
joint encoding of prompt+answer with its first `len(enc(prompt))` tokens
removed — backed off by one position when the boundary token merged — and
the labels equal the input ids with exactly the prompt positions (BOS
included) replaced by the ignore sentinel, completion positions left
untouched. -/
theorem C5_tokenize_row (enc : List Char → List Int) (bosId eosId labelPad : Int)
    (maxLength maxPromptLength : Nat) (mode : TruncationMode)
    (prompt chosen0 rejected0 : List Char) (pc ac pr ar : List Int)
    (hC : build_tokenized_answer enc prompt (stripOccurrences prompt chosen0)
        = some (pc, ac))
    (hR : build_tokenized_answer enc prompt (stripOccurrences prompt rejected0)
        = some (pr, ar))
    (hnt : (enc prompt).length + 1 + max (ac.length + 1) (ar.length + 1) ≤ maxLength) :
    tokenize_row enc bosId eosId labelPad maxLength maxPromptLength mode
        prompt chosen0 rejected0
      = some
        { prompt_input_ids := bosId :: enc prompt
          chosen_input_ids := (bosId :: pc) ++ (ac ++ [eosId])
          chosen_labels := List.replicate (pc.length + 1) labelPad ++ (ac ++ [eosId])
          rejected_input_ids := (bosId :: pr) ++ (ar ++ [eosId])
          rejected_labels := List.replicate (pr.length + 1) labelPad ++ (ar ++ [eosId]) } ∧
    pc ++ ac = enc (prompt ++ stripOccurrences prompt chosen0) ∧
    ac = (enc (prompt ++ stripOccurrences prompt chosen0)).drop
        (if (enc (prompt ++ stripOccurrences prompt chosen0)).take (enc prompt).length
            = enc prompt
          then (enc prompt).length else (enc prompt).length - 1) ∧
    (pc = enc prompt ∨ pc.length = (enc prompt).length - 1) ∧
    pr ++ ar = enc (prompt ++ stripOccurrences prompt rejected0) ∧
    ar = (enc (prompt ++ stripOccurrences prompt rejected0)).drop
        (if (enc (prompt ++ stripOccurrences prompt rejected0)).take (enc prompt).length
            = enc prompt
          then (enc prompt).length else (enc prompt).length - 1) ∧
    (pr = enc prompt ∨ pr.length = (enc prompt).length - 1) := by
  obtain ⟨hCfull, hCdrop, _, hClen, hCback⟩ :=
    build_tokenized_answer_spec enc prompt (stripOccurrences prompt chosen0) pc ac hC
  obtain ⟨hRfull, hRdrop, _, hRlen, hRback⟩ :=
    build_tokenized_answer_spec enc prompt (stripOccurrences prompt rejected0) pr ar hR
  refine ⟨?_, hCfull, hCdrop, hCback, hRfull, hRdrop, hRback⟩
  simp only [tokenize_row]
  rw [hC, hR]
  have hlonger : (ac ++ [eosId]).length = ac.length + 1 := by simp
  have hlonger' : (ar ++ [eosId]).length = ar.length + 1 := by simp
  have hcondC : ¬ maxLength
      < (bosId :: pc).length + max (ac ++ [eosId]).length (ar ++ [eosId]).length := by
    simp only [List.length_cons, hlonger, hlonger']
    omega
  have hcondR : ¬ maxLength
      < (bosId :: pr).length + max (ac ++ [eosId]).length (ar ++ [eosId]).length := by
    simp only [List.length_cons, hlonger, hlonger']
    omega
  have hcondP : ¬ maxLength
      < (bosId :: enc prompt).length + max (ac ++ [eosId]).length (ar ++ [eosId]).length := by
    simp only [List.length_cons, hlonger, hlonger']
    omega
  simp only [if_neg hcondC, if_neg hcondR, if_neg hcondP]
  simp only [List.drop_left]
  rfl

/-- Witness for `C5_tokenize_row` at concrete inputs. -/
theorem C5_tokenize_row_witness :
    tokenize_row (fun s => s.map (fun c => (c.toNat : Int))) 1 2 (-100) 100 10
        TruncationMode.keepStart ([Char.ofNat 97, Char.ofNat 98]) [Char.ofNat 99]
        [Char.ofNat 100]
      = some
        { prompt_input_ids := [1, 97, 98]
          chosen_input_ids := [1, 97, 98, 99, 2]
          chosen_labels := [-100, -100, -100, 99, 2]
          rejected_input_ids := [1, 97, 98, 100, 2]
          rejected_labels := [-100, -100, -100, 100, 2] } := by
  have h := (C5_tokenize_row (fun s => s.map (fun c => (c.toNat : Int))) 1 2 (-100) 100 10
    TruncationMode.keepStart ([Char.ofNat 97, Char.ofNat 98]) [Char.ofNat 99]
    [Char.ofNat 100] [97, 98] [99] [97, 98] [100]
    (by decide) (by decide) (by decide)).1
  rw [h]
  rfl

end Lighteval
